import Mathlib

set_option autoImplicit false

/-
Shallow embedding of the reducto repository's protocol / patch-engine /
process-supervision layer (Go sources under internal/lsp, internal/mcp and
the sidecar package), together with theorems checking the natural-language
specification against it.

Go strings are modelled as `List Char` (`Str`); `strings.Split(s, "\n")`
becomes `splitNL`, `strings.Join(ls, "\n")` becomes `joinNL`.  Fallible Go
functions returning `(T, error)` become `Except String T`.  Go `int` values
appearing here (diff line numbers and counts) are modelled as `Nat`: every
value the parser produces is a digit-string value, and no claim under
consideration depends on 64-bit wrap-around of those counts.  The
`atomic.Int64` request-id counter of the LSP client, where signed 64-bit
semantics does matter, is modelled with an explicit two's-complement
reduction (`int64OfNat`).
-/

namespace Reducto

/-- Go string, modelled as a list of characters. -/
abbrev Str := List Char

/-- Model of Go `strings.Split(s, "\n")`: split at every newline character;
the result is always non-empty, and splitting the empty string yields one
empty field. -/
def splitNL : Str → List Str
  | [] => [[]]
  | c :: rest =>
    if c = '\n' then [] :: splitNL rest
    else
      match splitNL rest with
      | [] => [[c]]
      | l :: ls => (c :: l) :: ls

/-- Model of Go `strings.Join(lines, "\n")`. -/
def joinNL : List Str → Str
  | [] => []
  | [l] => l
  | l :: l2 :: ls => l ++ '\n' :: joinNL (l2 :: ls)

theorem splitNL_ne_nil (s : Str) : splitNL s ≠ [] := by
  cases s with
  | nil => simp [splitNL]
  | cons c rest =>
    simp only [splitNL]
    by_cases h : c = '\n'
    · simp [h]
    · simp only [h, if_false]
      cases splitNL rest <;> simp

theorem joinNL_splitNL (s : Str) : joinNL (splitNL s) = s := by
  induction s with
  | nil => rfl
  | cons c rest ih =>
    simp only [splitNL]
    by_cases h : c = '\n'
    · subst h
      simp only [if_pos rfl]
      have hne := splitNL_ne_nil rest
      cases hsp : splitNL rest with
      | nil => exact absurd hsp hne
      | cons l ls =>
        rw [hsp] at ih
        simp [joinNL, ih]
    · simp only [h, if_false]
      have hne := splitNL_ne_nil rest
      cases hsp : splitNL rest with
      | nil => exact absurd hsp hne
      | cons l ls =>
        rw [hsp] at ih
        cases ls with
        | nil => simpa [joinNL] using ih
        | cons l2 ls' => simpa [joinNL] using ih

/-- Model of Go `strings.HasPrefix(s, p)` (arguments: prefix first). -/
def hasPrefixChars : Str → Str → Bool
  | [], _ => true
  | _ :: _, [] => false
  | p :: ps, c :: cs => p = c && hasPrefixChars ps cs

/-
PatchEngine — embedding of internal/mcp diff.go:
`ApplyUnifiedDiff`, `parseHunks`, `parseInt`, `applyHunk`, types `hunk`
and `diffLine`.
-/

/-- One change line of a hunk (Go type `diffLine`): `kind` is the leading
byte of the diff line (`' '`, `'+'` or `'-'` as produced by the parser),
`content` the rest of the line. -/
structure DiffLine where
  kind : Char
  content : Str
deriving DecidableEq, Repr

/-- One hunk of a unified diff (Go type `hunk`). -/
structure Hunk where
  oldStart : Nat
  oldCount : Nat
  newStart : Nat
  newCount : Nat
  changes : List DiffLine
deriving DecidableEq, Repr

/-- Model of the Go helper `parseInt`: fold over the characters, keeping
only decimal digits.  (The Go version works on machine `int`; the inputs it
ever receives here are the digit groups of the hunk-header pattern, so the
value is their plain decimal reading.) -/
def parseInt (s : Str) : Nat :=
  s.foldl (fun r c => if '0' ≤ c ∧ c ≤ '9' then r * 10 + (c.toNat - '0'.toNat) else r) 0

/-- Maximal leading run of decimal digits of a character list, together
with the remainder. -/
def digitSpan : Str → Str × Str
  | [] => ([], [])
  | c :: cs =>
    if '0' ≤ c ∧ c ≤ '9' then
      let r := digitSpan cs
      (c :: r.1, r.2)
    else ([], c :: cs)

/-- Strip an expected literal character sequence from the front of a list,
returning the remainder on success. -/
def stripLit : Str → Str → Option Str
  | [], s => some s
  | _ :: _, [] => none
  | t :: ts, c :: cs => if c = t then stripLit ts cs else none

/-- Optional `,<digits>` group of the hunk-header pattern: consumed only
when a comma followed by at least one digit is present (matching the
regular expression group `(?:,(\d+))?`). -/
def optCommaDigits (s : Str) : Option Str × Str :=
  match s with
  | ',' :: rest =>
    let r := digitSpan rest
    if r.1 = [] then (none, s) else (some r.1, r.2)
  | _ => (none, s)

/-- Model of `hunkHeaderRegex.FindStringSubmatch` for the anchored pattern
`^@@ -(\d+)(?:,(\d+))? \+(\d+)(?:,(\d+))? @@`: on success returns the four
header numbers `(oldStart, oldCount, newStart, newCount)` with omitted
counts defaulted to 1, exactly as the Go caller fills the `hunk` fields.
Since the digit groups cannot contain `,` or a space, the greedy
left-to-right reading implemented here is equivalent to the regular
expression's backtracking search. -/
def matchHunkHeader (line : Str) : Option (Nat × Nat × Nat × Nat) := do
  let r1 ← stripLit ['@', '@', ' ', '-'] line
  let d1 := digitSpan r1
  if d1.1 = [] then none else
  let g2 := optCommaDigits d1.2
  let r4 ← stripLit [' ', '+'] g2.2
  let d3 := digitSpan r4
  if d3.1 = [] then none else
  let g4 := optCommaDigits d3.2
  let _ ← stripLit [' ', '@', '@'] g4.2
  some (parseInt d1.1, (g2.1.map parseInt).getD 1,
        parseInt d3.1, (g4.1.map parseInt).getD 1)

/-- Loop body of Go `parseHunks`, made explicit as a recursion over the
remaining diff lines with the accumulated hunks and the current hunk as
state.  A line with prefix `"@@ "` first flushes the current hunk; if the
header does not match the pattern the current hunk is retained (the Go
code keeps the old `currentHunk` pointer alive after the flush, so the
following change lines still extend it and it is flushed a second time).
A non-header line extends the current hunk only when it is non-empty and
starts with `'+'`, `'-'` or `' '`.  The trailing flush mirrors the final
`if currentHunk != nil` append. -/
def parseHunksLoop : List Str → List Hunk → Option Hunk → List Hunk
  | [], hunks, cur => hunks ++ cur.toList
  | line :: rest, hunks, cur =>
    if hasPrefixChars ['@', '@', ' '] line then
      let hunks' := hunks ++ cur.toList
      match matchHunkHeader line with
      | none => parseHunksLoop rest hunks' cur
      | some (a, b, c, d) =>
        parseHunksLoop rest hunks' (some ⟨a, b, c, d, []⟩)
    else
      match cur, line with
      | some h, k :: restChars =>
        if k = '+' ∨ k = '-' ∨ k = ' ' then
          parseHunksLoop rest hunks
            (some { h with changes := h.changes ++ [⟨k, restChars⟩] })
        else parseHunksLoop rest hunks cur
      | _, _ => parseHunksLoop rest hunks cur

/-- Model of Go `parseHunks`: its `error` result is the `Except` layer;
the function body never produces a non-nil error. -/
def parseHunks (diffLines : List Str) : Except String (List Hunk) :=
  .ok (parseHunksLoop diffLines [] none)

/-- The change-processing loop of Go `applyHunk` (the middle `for` over
`h.changes`): given the original lines and the source cursor `lineIdx`,
returns the emitted lines of this phase together with the final cursor.
A context line copies the current original line and advances the cursor
when it is in range; a removal advances the cursor unconditionally; an
addition emits the change's content without touching the cursor. -/
def applyChanges (lines : List Str) : List DiffLine → Nat → List Str × Nat
  | [], lineIdx => ([], lineIdx)
  | c :: cs, lineIdx =>
    if c.kind = ' ' then
      if hlt : lineIdx < lines.length then
        let r := applyChanges lines cs (lineIdx + 1)
        (lines.get ⟨lineIdx, hlt⟩ :: r.1, r.2)
      else applyChanges lines cs lineIdx
    else if c.kind = '-' then
      applyChanges lines cs (lineIdx + 1)
    else if c.kind = '+' then
      let r := applyChanges lines cs lineIdx
      (c.content :: r.1, r.2)
    else applyChanges lines cs lineIdx

/-- Model of Go `applyHunk`.  The first loop copies original lines while
`lineIdx < oldStart-1 && lineIdx < len(lines)`, i.e. the prefix of length
`min (oldStart-1) (length lines)`; then the changes are processed; the
last loop copies every original line from the final cursor on.  (Go's
`oldStart-1` can be `-1` when `oldStart = 0`, in which case the first loop
runs zero times — the same as the truncated `Nat` subtraction here.)  The
`error` result of the Go function is always nil. -/
def applyHunk (lines : List Str) (h : Hunk) : Except String (List Str) :=
  let start := min (h.oldStart - 1) lines.length
  let r := applyChanges lines h.changes start
  .ok (lines.take start ++ r.1 ++ lines.drop r.2)

/-- The hunk loop of Go `ApplyUnifiedDiff` (`for i := len(hunks)-1; i >= 0;
i--` threading `lines`), written over the reversed hunk list with the Go
error propagation kept. -/
def applyHunksRev : List Str → List Hunk → Except String (List Str)
  | lines, [] => .ok lines
  | lines, h :: hs =>
    match applyHunk lines h with
    | .error e => .error e
    | .ok l => applyHunksRev l hs

/-- Model of Go `ApplyUnifiedDiff`: split both inputs on newlines, parse
the hunks, apply them last-first, join the result. -/
def ApplyUnifiedDiff (original diff : Str) : Except String Str :=
  let lines := splitNL original
  let diffLines := splitNL diff
  match parseHunks diffLines with
  | .error e => .error e
  | .ok hunks =>
    match applyHunksRev lines hunks.reverse with
    | .error e => .error e
    | .ok out => .ok (joinNL out)

/-
Specification-side rendering of the patch-application algorithm, taken
from the spec's own words for comparison with the source embedding above:
"Within one hunk: copy unchanged lines up to `oldStart-1`; then for each
change — a context line copies-and-advances the source cursor, a removal
advances the source cursor without copying, an addition emits the
replacement line without advancing the source cursor; finally copy all
remaining original lines after the hunk", processed "in reverse order of
appearance (last hunk first)".
-/

/-- Change processing as the spec words it, with the not-yet-consumed
original suffix playing the role of the source cursor: a context line
copies the current original line (when one remains) and advances, a
removal advances without copying, an addition emits its content without
advancing; when the changes are exhausted the remaining original lines
are all copied. -/
def specHunkChanges : List Str → List DiffLine → List Str
  | src, [] => src
  | src, c :: cs =>
    if c.kind = ' ' then
      match src with
      | [] => specHunkChanges [] cs
      | x :: xs => x :: specHunkChanges xs cs
    else if c.kind = '-' then specHunkChanges src.tail cs
    else if c.kind = '+' then c.content :: specHunkChanges src cs
    else specHunkChanges src cs

/-- One hunk applied as the spec words it: copy the original lines up to
index `oldStart-1`, then process the changes against the remaining
original lines. -/
def specApplyHunk (lines : List Str) (h : Hunk) : List Str :=
  lines.take (h.oldStart - 1) ++ specHunkChanges (lines.drop (h.oldStart - 1)) h.changes

/-- All hunks applied in reverse order of appearance (last hunk first),
as the spec words it. -/
def specApplyAll (lines : List Str) (hunks : List Hunk) : List Str :=
  hunks.reverse.foldl specApplyHunk lines

theorem applyChanges_append_drop (lines : List Str) (cs : List DiffLine) :
    ∀ i : Nat,
      (applyChanges lines cs i).1 ++ lines.drop (applyChanges lines cs i).2
        = specHunkChanges (lines.drop i) cs := by
  induction cs with
  | nil => intro i; simp [applyChanges, specHunkChanges]
  | cons c cs ih =>
    intro i
    by_cases hsp : c.kind = ' '
    · by_cases hlt : i < lines.length
      · have hdrop : lines.drop i = lines.get ⟨i, hlt⟩ :: lines.drop (i + 1) :=
          List.drop_eq_getElem_cons hlt
        simp only [applyChanges, specHunkChanges, if_pos hsp, dif_pos hlt, hdrop,
          List.cons_append]
        rw [ih (i + 1)]
      · have hdrop : lines.drop i = [] := List.drop_eq_nil_of_le (Nat.le_of_not_lt hlt)
        simp only [applyChanges, specHunkChanges, if_pos hsp, dif_neg hlt, hdrop]
        have := ih i
        rw [hdrop] at this
        exact this
    · by_cases hrm : c.kind = '-'
      · have htail : (lines.drop i).tail = lines.drop (i + 1) := by
          rw [List.tail_drop]
        simp only [applyChanges, specHunkChanges, if_neg hsp, if_pos hrm, htail]
        exact ih (i + 1)
      · by_cases had : c.kind = '+'
        · simp only [applyChanges, specHunkChanges, if_neg hsp, if_neg hrm, if_pos had,
            List.cons_append]
          rw [ih i]
        · simp only [applyChanges, specHunkChanges, if_neg hsp, if_neg hrm, if_neg had]
          exact ih i

theorem applyHunk_eq_spec (lines : List Str) (h : Hunk) :
    applyHunk lines h = .ok (specApplyHunk lines h) := by
  have htake : lines.take (min (h.oldStart - 1) lines.length) = lines.take (h.oldStart - 1) := by
    rcases Nat.le_total (h.oldStart - 1) lines.length with hle | hle
    · rw [Nat.min_eq_left hle]
    · rw [Nat.min_eq_right hle, List.take_length, List.take_of_length_le hle]
  have hdrop : lines.drop (min (h.oldStart - 1) lines.length) = lines.drop (h.oldStart - 1) := by
    rcases Nat.le_total (h.oldStart - 1) lines.length with hle | hle
    · rw [Nat.min_eq_left hle]
    · rw [Nat.min_eq_right hle, List.drop_length,
        Eq.symm (List.drop_eq_nil_of_le hle)]
  show Except.ok
      (lines.take (min (h.oldStart - 1) lines.length) ++
        (applyChanges lines h.changes (min (h.oldStart - 1) lines.length)).1 ++
        lines.drop (applyChanges lines h.changes (min (h.oldStart - 1) lines.length)).2)
    = Except.ok (specApplyHunk lines h)
  rw [List.append_assoc, applyChanges_append_drop lines h.changes, hdrop, htake]
  rfl

theorem applyHunksRev_eq_spec (hs : List Hunk) :
    ∀ lines : List Str, applyHunksRev lines hs = .ok (hs.foldl specApplyHunk lines) := by
  induction hs with
  | nil => intro lines; simp [applyHunksRev, List.foldl]
  | cons h hs ih =>
    intro lines
    simp only [applyHunksRev, applyHunk_eq_spec, List.foldl]
    exact ih (specApplyHunk lines h)

/-- C2: `ApplyUnifiedDiff` applies the parsed hunks in reverse order of
appearance (last hunk first), and within one hunk it first copies original
lines up to index `oldStart-1`, then a context line copies the current
original line and advances the source cursor, a removal advances the
source cursor without copying, an addition emits the change's content
without advancing, and finally all remaining original lines are copied:
the source embedding equals the specification-side algorithm
`specApplyAll` / `specApplyHunk` on every input. -/
theorem applyUnifiedDiff_eq_specApplyAll (original diff : Str) :
    ApplyUnifiedDiff original diff =
      .ok (joinNL (specApplyAll (splitNL original) (parseHunksLoop (splitNL diff) [] none))) := by
  show (match applyHunksRev (splitNL original) (parseHunksLoop (splitNL diff) [] none).reverse with
        | .error e => (.error e : Except String Str)
        | .ok out => .ok (joinNL out))
      = .ok (joinNL (specApplyAll (splitNL original) (parseHunksLoop (splitNL diff) [] none)))
  rw [applyHunksRev_eq_spec]
  rfl

/-- All changes of every hunk produced by the parser carry one of the three
kinds `' '`, `'+'`, `'-'`: context-only hunks leave the lines unchanged. -/
theorem specHunkChanges_ctx (cs : List DiffLine) (hctx : ∀ c ∈ cs, c.kind = ' ') :
    ∀ src : List Str, specHunkChanges src cs = src := by
  induction cs with
  | nil => intro src; simp [specHunkChanges]
  | cons c cs ih =>
    intro src
    have hk : c.kind = ' ' := hctx c (List.mem_cons_self c cs)
    have hrest : ∀ c' ∈ cs, c'.kind = ' ' := fun c' hc' => hctx c' (List.mem_cons_of_mem c hc')
    cases src with
    | nil => simp [specHunkChanges, hk, ih hrest]
    | cons x xs => simp [specHunkChanges, hk, ih hrest]

theorem specApplyHunk_ctx (lines : List Str) (h : Hunk)
    (hctx : ∀ c ∈ h.changes, c.kind = ' ') : specApplyHunk lines h = lines := by
  unfold specApplyHunk
  rw [specHunkChanges_ctx h.changes hctx, List.take_append_drop]

theorem specApplyAll_ctx (hunks : List Hunk)
    (hctx : ∀ h ∈ hunks, ∀ c ∈ h.changes, c.kind = ' ') :
    ∀ lines : List Str, specApplyAll lines hunks = lines := by
  have main : ∀ hs : List Hunk, (∀ h ∈ hs, ∀ c ∈ h.changes, c.kind = ' ') →
      ∀ lines : List Str, hs.foldl specApplyHunk lines = lines := by
    intro hs
    induction hs with
    | nil => intro _ lines; simp
    | cons h hs ih =>
      intro hh lines
      simp only [List.foldl]
      rw [specApplyHunk_ctx lines h (hh h (List.mem_cons_self h hs))]
      exact ih (fun h' hh' => hh h' (List.mem_cons_of_mem h hh')) lines
  intro lines
  unfold specApplyAll
  refine main hunks.reverse ?_ lines
  intro h hh
  exact hctx h (List.mem_reverse.mp hh)

/-- C3: empty-diff identity and context-only-diff identity for
`ApplyUnifiedDiff`. -/
theorem applyUnifiedDiff_identity (original diff : Str)
    (hctx : ∀ h ∈ parseHunksLoop (splitNL diff) [] none, ∀ c ∈ h.changes, c.kind = ' ') :
    ApplyUnifiedDiff original [] = .ok original ∧
      ApplyUnifiedDiff original diff = .ok original := by
  constructor
  · rw [applyUnifiedDiff_eq_specApplyAll]
    have hempty : parseHunksLoop (splitNL ([] : Str)) [] none = [] := by decide
    rw [hempty]
    rw [show specApplyAll (splitNL original) [] = splitNL original from rfl]
    rw [joinNL_splitNL]
  · rw [applyUnifiedDiff_eq_specApplyAll]
    rw [specApplyAll_ctx _ hctx (splitNL original), joinNL_splitNL]

/-- C3 witness: the identities evaluated on the spec's concrete scenario
text and a context-only hunk. -/
theorem applyUnifiedDiff_identity_witness :
    (∀ h ∈ parseHunksLoop (splitNL ("@@ -1,2 +1,2 @@\n line1\n line2".toList)) [] none,
        ∀ c ∈ h.changes, c.kind = ' ') ∧
      (ApplyUnifiedDiff ("line1\nline2".toList) [] = .ok ("line1\nline2".toList) ∧
        ApplyUnifiedDiff ("line1\nline2".toList) ("@@ -1,2 +1,2 @@\n line1\n line2".toList)
          = .ok ("line1\nline2".toList)) :=
  ⟨by decide, applyUnifiedDiff_identity ("line1\nline2".toList)
      ("@@ -1,2 +1,2 @@\n line1\n line2".toList) (by decide)⟩

/-- C10: `ApplyUnifiedDiff` is total and never fails — its error branches
are unreachable because neither `parseHunks` (which skips non-matching
header lines and ignores stray change lines) nor `applyHunk` (whose index
accesses are all bounds-guarded) ever produces an error. -/
theorem applyUnifiedDiff_never_fails (original diff : Str) :
    ∃ out : Str, ApplyUnifiedDiff original diff = .ok out := by
  refine ⟨_, applyUnifiedDiff_eq_specApplyAll original diff⟩

/-
Protocol layer — embedding of internal/mcp/protocol.go and the dispatcher
of internal/mcp server code (`Server.getHandler`, `Server.handleRequest`,
`Server.Start`, `Server.handleInitialize`).
-/

/-- The protocol version constant (Go `JSONRPCVersion`). -/
def JSONRPCVersion : String := "2.0"

/-- Standard JSON-RPC error code (Go constant). -/
def ParseError : Int := -32700

/-- Standard JSON-RPC error code (Go constant). -/
def InvalidRequest : Int := -32600

/-- Standard JSON-RPC error code (Go constant). -/
def MethodNotFound : Int := -32601

/-- Standard JSON-RPC error code (Go constant). -/
def InvalidParams : Int := -32602

/-- Standard JSON-RPC error code (Go constant). -/
def InternalError : Int := -32603

/-- A well-formed JSON object with the shape of a request, as it stands
right after a successful `json.Unmarshal` into Go's `Request` struct but
before the version check: `jsonrpc = none` models the field being absent
from the object (Go's zero value `""`), `id` models the opaque
empty-interface id as an optional number, `params` the raw parameter
bytes as an opaque optional payload. -/
structure RequestWire where
  jsonrpc : Option String
  id : Option Nat
  method : String
  params : Option String
deriving DecidableEq, Repr

/-- Go's `Request` struct after `ParseRequest` has accepted it. -/
structure Request where
  jsonrpc : String
  id : Option Nat
  method : String
  params : Option String
deriving DecidableEq, Repr

/-- Go `ErrorObject`: `data` (Go `interface` value) is modelled as an
optional string payload. -/
structure ErrorObject where
  code : Int
  message : String
  data : Option String
deriving DecidableEq, Repr

/-- Go `Response`: `result` (Go `interface` value) is modelled as an
optional opaque string payload. -/
structure Response where
  jsonrpc : String
  id : Option Nat
  result : Option String
  error : Option ErrorObject
deriving DecidableEq, Repr

/-- Go `SuccessResponse`. -/
def SuccessResponse (id : Option Nat) (result : String) : Response :=
  { jsonrpc := JSONRPCVersion, id := id, result := some result, error := none }

/-- Go `ErrorResponse`. -/
def ErrorResponse (id : Option Nat) (code : Int) (message : String)
    (data : Option String) : Response :=
  { jsonrpc := JSONRPCVersion, id := id, result := none,
    error := some { code := code, message := message, data := data } }

/-- Model of Go `ParseRequest` after the `json.Unmarshal` step (malformed
byte inputs, which fail before this point, are handled at the read-loop
level as `InLine.malformed`): fill the struct from the decoded object —
an absent `jsonrpc` field yields Go's zero value `""` — and reject it
unless the version equals `"2.0"`. -/
def ParseRequest (w : RequestWire) : Except String Request :=
  let req : Request :=
    { jsonrpc := w.jsonrpc.getD "", id := w.id, method := w.method, params := w.params }
  if req.jsonrpc ≠ JSONRPCVersion then
    .error ("invalid JSON-RPC version: " ++ req.jsonrpc)
  else
    .ok req

/-- The closed set of handlers of `Server.getHandler`; each Go handler
method is represented by a tag (their effects are abstracted by the
`exec` oracle of `handleRequest`). -/
inductive HandlerTag where
  | initTool
  | shutdownTool
  | readFile
  | getSymbols
  | getAst
  | findReferences
  | applyDiff
  | runTests
  | gitCheckpoint
  | gitRollback
  | listFiles
  | getComplexity
deriving DecidableEq, Repr

/-- The `handlers` map literal of `Server.getHandler`, as an association
list (the Go map's key set; lookup order is irrelevant because the keys
are pairwise distinct). -/
def handlers : List (String × HandlerTag) :=
  [("initialize", .initTool),
   ("shutdown", .shutdownTool),
   ("read_file", .readFile),
   ("get_symbols", .getSymbols),
   ("get_ast", .getAst),
   ("find_references", .findReferences),
   ("apply_diff", .applyDiff),
   ("run_tests", .runTests),
   ("git_checkpoint", .gitCheckpoint),
   ("git_rollback", .gitRollback),
   ("list_files", .listFiles),
   ("get_complexity", .getComplexity)]

/-- Model of Go `Server.getHandler`: map lookup in the fixed table. -/
def getHandler (method : String) : Option HandlerTag :=
  (handlers.find? (fun p => p.1 == method)).map Prod.snd

/-- The `tools` field of the `initialize` response built by
`Server.handleInitialize`. -/
def toolsAdvertised : List String :=
  ["read_file", "get_symbols", "get_ast", "find_references",
   "apply_diff", "run_tests", "git_checkpoint", "git_rollback",
   "list_files", "get_complexity"]

/-- Outcome of running a Go handler: either a result payload, a typed
protocol error (Go `*ErrorObject`), or a generic Go error, mirroring the
`err.(*ErrorObject)` type switch in `Server.handleRequest`. -/
inductive HandlerOutcome where
  | ok (result : String)
  | rpcErr (e : ErrorObject)
  | genericErr (msg : String)

/-- Model of Go `Server.handleRequest`; `exec` abstracts the effectful
execution of the looked-up handler on the request's raw parameters. -/
def handleRequest (exec : HandlerTag → Option String → HandlerOutcome)
    (req : Request) : Response :=
  match getHandler req.method with
  | none => ErrorResponse req.id MethodNotFound "Method not found" (some req.method)
  | some tag =>
    match exec tag req.params with
    | .rpcErr e => ErrorResponse req.id e.code e.message e.data
    | .genericErr msg => ErrorResponse req.id InternalError msg none
    | .ok result => SuccessResponse req.id result

/-- One inbound NDJSON line of the `Server.Start` read loop, classified by
what `scanner.Bytes()` and `json.Unmarshal` do with it: an empty line, a
line that is not a well-formed JSON object (with the decoder's message),
or a decoded request-shaped object. -/
inductive InLine where
  | empty
  | malformed (msg : String)
  | obj (w : RequestWire)

/-- Model of the read loop of `Server.Start` (the non-cancelled path):
empty lines are skipped, undecodable lines and version failures emit a
`ParseError` response and continue, decoded requests are dispatched and
their response emitted (`handleRequest` never returns nil), and in every
case the loop goes on with the remaining lines. -/
def serverLoop (exec : HandlerTag → Option String → HandlerOutcome) :
    List InLine → List Response
  | [] => []
  | .empty :: rest => serverLoop exec rest
  | .malformed msg :: rest =>
    ErrorResponse none ParseError ("failed to parse request: " ++ msg) none ::
      serverLoop exec rest
  | .obj w :: rest =>
    match ParseRequest w with
    | .error e => ErrorResponse none ParseError e none :: serverLoop exec rest
    | .ok req => handleRequest exec req :: serverLoop exec rest

/-- C7: a decoded request object with `jsonrpc = "2.0"` is accepted by
`ParseRequest` with the method string unchanged; one whose `jsonrpc`
field is missing or holds any other value is rejected. -/
theorem parseRequest_version_check (w : RequestWire) :
    (w.jsonrpc = some JSONRPCVersion →
      ParseRequest w = .ok { jsonrpc := JSONRPCVersion, id := w.id,
                             method := w.method, params := w.params }) ∧
    (w.jsonrpc ≠ some JSONRPCVersion →
      ParseRequest w = .error ("invalid JSON-RPC version: " ++ w.jsonrpc.getD "")) := by
  constructor
  · intro hv
    simp [ParseRequest, hv]
  · intro hv
    have hne : w.jsonrpc.getD "" ≠ JSONRPCVersion := by
      cases hj : w.jsonrpc with
      | none => intro hc; exact absurd hc (by decide)
      | some v =>
        intro hc
        simp only [Option.getD] at hc
        exact hv (by rw [hj, hc])
    simp [ParseRequest, hne]

/-- C7 witness: `ParseRequest` evaluated on a conforming request, on a
wrong-version request and on a version-less request. -/
theorem parseRequest_version_check_witness :
    ParseRequest { jsonrpc := some "2.0", id := some 1, method := "read_file", params := none }
      = .ok { jsonrpc := "2.0", id := some 1, method := "read_file", params := none } ∧
    ParseRequest { jsonrpc := some "1.0", id := some 2, method := "read_file", params := none }
      = .error ("invalid JSON-RPC version: " ++ "1.0") ∧
    ParseRequest { jsonrpc := none, id := none, method := "shutdown", params := none }
      = .error ("invalid JSON-RPC version: " ++ "") :=
  ⟨(parseRequest_version_check _).1 rfl,
   (parseRequest_version_check _).2 (by decide),
   (parseRequest_version_check _).2 (by decide)⟩

/-- C4 counterexample: `initialize` is honored by the dispatcher's
handler table yet absent from the `tools` list of the `initialize`
response, so the advertised set does not equal the honored set. -/
theorem toolsAdvertised_ne_handlerTable :
    (getHandler "initialize").isSome = true ∧ "initialize" ∉ toolsAdvertised := by
  decide

theorem getHandler_isSome_iff (m : String) :
    (getHandler m).isSome = true ↔ m ∈ handlers.map Prod.fst := by
  simp only [getHandler, Option.isSome_map', List.find?_isSome, List.mem_map]
  constructor
  · rintro ⟨p, hp, he⟩
    exact ⟨p, hp, beq_iff_eq.mp he⟩
  · rintro ⟨p, hp, he⟩
    exact ⟨p, hp, beq_iff_eq.mpr he⟩

/-- C4 amended: the advertised `tools` set equals the handler-table set
minus the two lifecycle methods `initialize` and `shutdown` (which the
dispatcher honors but does not advertise). -/
theorem toolsAdvertised_eq_handlers_minus_lifecycle (m : String) :
    m ∈ toolsAdvertised ↔
      ((getHandler m).isSome = true ∧ m ≠ "initialize" ∧ m ≠ "shutdown") := by
  rw [getHandler_isSome_iff]
  constructor
  · intro hm
    fin_cases hm <;> exact ⟨by decide, by decide, by decide⟩
  · rintro ⟨hmem, h1, h2⟩
    simp only [handlers, List.map_cons, List.map_nil] at hmem
    fin_cases hmem
    · exact absurd rfl h1
    · exact absurd rfl h2
    all_goals decide

/-- C6: a parsed request whose method is not in the handler table yields
an error response whose code is `MethodNotFound` = -32601, and the read
loop goes on processing the remaining lines. -/
theorem unknown_method_yields_methodNotFound
    (exec : HandlerTag → Option String → HandlerOutcome)
    (w : RequestWire) (rest : List InLine)
    (hv : w.jsonrpc = some JSONRPCVersion)
    (hm : getHandler w.method = none) :
    MethodNotFound = -32601 ∧
      serverLoop exec (.obj w :: rest) =
        ErrorResponse w.id MethodNotFound "Method not found" (some w.method) ::
          serverLoop exec rest := by
  refine ⟨rfl, ?_⟩
  have hp := (parseRequest_version_check w).1 hv
  simp only [serverLoop, hp, handleRequest, hm]

/-- C6 witness: the loop evaluated on an unknown method followed by the
end of input. -/
theorem unknown_method_yields_methodNotFound_witness :
    serverLoop (fun _ _ => HandlerOutcome.ok "")
        [InLine.obj { jsonrpc := some "2.0", id := some 7, method := "bogus", params := none }]
      = [ErrorResponse (some 7) MethodNotFound "Method not found" (some "bogus")] := by
  have h := unknown_method_yields_methodNotFound (fun _ _ => HandlerOutcome.ok "")
      { jsonrpc := some "2.0", id := some 7, method := "bogus", params := none } [] rfl
      (by decide)
  simpa [serverLoop] using h.2

/-
ProcessSupervisor side channel and `Stop` — embedding of the sidecar
package's `MCPManager` (`NewMCPManager`, `readResultFromStderr`, `Stop`,
`WaitForResult`).  The capacity-1 result channel is modelled by its
buffer: `none` when empty, `some v` when a value is buffered and not yet
consumed.  The parsed `RESULT:` payload (a Go `map` from JSON) is an
opaque type parameter.
-/

/-- The literal marker of the side-channel result protocol. -/
def resultMarker : Str := "RESULT:".toList

/-- Model of Go `select case ch <- v: default:` on a capacity-1 channel:
the value is buffered when the channel is free and silently dropped when
a previous value is still buffered. -/
def trySend {α : Type} (ch : Option α) (v : α) : Option α :=
  match ch with
  | none => some v
  | some old => some old

/-- Model of one iteration of `MCPManager.readResultFromStderr` on channel
state `ch`: a line with the `RESULT:` prefix has its remainder decoded by
`jsonDecode` (the `json.Unmarshal` oracle) and, on success, sent with the
non-blocking send; every other case (decode failure or a diagnostic line,
which is only forwarded) leaves the channel untouched. -/
def readStderrLine {α : Type} (jsonDecode : Str → Option α)
    (ch : Option α) (line : Str) : Option α :=
  if hasPrefixChars resultMarker line then
    match jsonDecode (line.drop resultMarker.length) with
    | some v => trySend ch v
    | none => ch
  else ch

/-- Model of `MCPManager.WaitForResult` at the moment the timeout race is
decided, given the channel buffer at that moment: a buffered value is
received (emptying the buffer); with no buffered value and no arrival
before the deadline, the distinct timeout error is returned. -/
def WaitForResult {α : Type} (ch : Option α) : Except String α × Option α :=
  match ch with
  | some v => (.ok v, none)
  | none => (.error "timeout waiting for result", none)

/-- C8: when the stderr reader parses a `RESULT:` line while the
capacity-1 channel still buffers an undelivered result, the send is
non-blocking and the new value is silently dropped: the channel keeps the
earlier result and a subsequent `WaitForResult` receives that earlier
result (first wins). -/
theorem result_channel_first_wins {α : Type} (jsonDecode : Str → Option α)
    (r0 v : α) (line : Str)
    (hpre : hasPrefixChars resultMarker line = true)
    (hdec : jsonDecode (line.drop resultMarker.length) = some v) :
    readStderrLine jsonDecode (some r0) line = some r0 ∧
      (WaitForResult (readStderrLine jsonDecode (some r0) line)).1 = .ok r0 := by
  have h : readStderrLine jsonDecode (some r0) line = some r0 := by
    simp [readStderrLine, hpre, hdec, trySend]
  exact ⟨h, by rw [h]; rfl⟩

/-- C8 witness: a concrete `RESULT:` line raced against a full channel. -/
theorem result_channel_first_wins_witness :
    hasPrefixChars resultMarker ("RESULT:42".toList) = true ∧
      readStderrLine (fun s => if s = "42".toList then some 42 else none)
          (some 7) ("RESULT:42".toList) = some 7 ∧
      (WaitForResult (readStderrLine (fun s => if s = "42".toList then some 42 else none)
          (some 7) ("RESULT:42".toList))).1 = .ok 7 :=
  ⟨by decide,
   (result_channel_first_wins (fun s => if s = "42".toList then some 42 else none)
      7 42 ("RESULT:42".toList) (by decide) (by decide)).1,
   (result_channel_first_wins (fun s => if s = "42".toList then some 42 else none)
      7 42 ("RESULT:42".toList) (by decide) (by decide)).2⟩

/-- Termination side effects `MCPManager.Stop` can perform, recorded as a
trace: the process-group signal (POSIX branch), the single-process kill
(Windows branch), and the `cmd.Wait()` reap. -/
inductive StopAction where
  | killGroup (pid : Nat)
  | killOne (pid : Nat)
  | waitCmd
deriving DecidableEq, Repr

/-- The fields of Go `MCPManager` that `Stop` reads or writes: the
process reference (`none` when never started or already stopped), whether
`cmd` is non-nil, and the trace of termination actions performed so
far. -/
structure MCPManagerState where
  process : Option Nat
  cmdSet : Bool
  actions : List StopAction
deriving DecidableEq, Repr

/-- The state `NewMCPManager` constructs: no process, no command. -/
def newMCPManager : MCPManagerState :=
  { process := none, cmdSet := false, actions := [] }

/-- Model of `MCPManager.Stop`: a nil process reference is a no-op;
otherwise signal (whole process group on POSIX, single process on
Windows), wait on the command when present, and clear the process
reference. -/
def Stop (isWindows : Bool) (m : MCPManagerState) : MCPManagerState :=
  match m.process with
  | none => m
  | some pid =>
    let m1 := { m with actions :=
      m.actions ++ [if isWindows then StopAction.killOne pid else StopAction.killGroup pid] }
    let m2 := if m1.cmdSet then { m1 with actions := m1.actions ++ [StopAction.waitCmd] } else m1
    { m2 with process := none }

/-- C9: `Stop` is idempotent and total — on a manager that was never
started it is a no-op, a second call in a row changes nothing and
performs no further termination action (the process reference is cleared
by the first call, so repeated calls take the no-op path). -/
theorem stop_idempotent (isWindows : Bool) (m : MCPManagerState) :
    Stop isWindows newMCPManager = newMCPManager ∧
      (Stop isWindows m).process = none ∧
      Stop isWindows (Stop isWindows m) = Stop isWindows m ∧
      (Stop isWindows (Stop isWindows m)).actions = (Stop isWindows m).actions := by
  have hnoopOf : ∀ s : MCPManagerState, s.process = none → Stop isWindows s = s := by
    intro s hs
    unfold Stop
    rw [hs]
  have hnone : (Stop isWindows m).process = none := by
    cases hp : m.process with
    | none => rw [hnoopOf m hp]; exact hp
    | some pid => simp only [Stop, hp]
  have hagain : Stop isWindows (Stop isWindows m) = Stop isWindows m :=
    hnoopOf _ hnone
  exact ⟨hnoopOf newMCPManager rfl, hnone, hagain, by rw [hagain]⟩

/-
Correlator — embedding of `BaseClient` in internal/lsp/manager.go:
the `atomic.Int64` request-id counter, the mutex-guarded `pending` map
(represented by its key set; the per-request capacity-1 channels are left
abstract), `Call`'s allocation/registration phase and its two exits, and
`readResponses`'s delivery step.  The signed 64-bit counter is modelled
by the number of `Add(1)` operations performed, with `int64OfNat` giving
the two's-complement value the `k`-th operation returns.
-/

/-- Two's-complement reading of a 64-bit wrap of a natural number: the
value `atomic.Int64` holds after being incremented `n` times from zero. -/
def int64OfNat (n : Nat) : Int :=
  ((n : Int) + 2 ^ 63) % 2 ^ 64 - 2 ^ 63

/-- The `BaseClient` fields the claims concern: the number of `Add(1)`
operations performed on `requestID` (whose current value is
`int64OfNat counter`), and the key set of the `pending` map. -/
structure BaseClientState where
  counter : Nat
  pending : List Int
deriving DecidableEq, Repr

/-- The state `NewBaseClient` constructs: counter zero, empty map. -/
def newBaseClient : BaseClientState :=
  { counter := 0, pending := [] }

/-- The entry phase of `BaseClient.Call`: `id := c.requestID.Add(1)`
followed, under the mutex, by `c.pending[id] = ch`; returns the allocated
id.  (Writing the framed request performs no state change modelled
here.) -/
def callBegin (s : BaseClientState) : Int × BaseClientState :=
  let id := int64OfNat (s.counter + 1)
  (id, { counter := s.counter + 1,
         pending := if s.pending.contains id then s.pending else s.pending ++ [id] })

/-- The `ctx.Done()` exit of `BaseClient.Call`: it returns `ctx.Err()`
and performs no state change — in particular the pending entry of the
cancelled call is not deleted (deletion happens only in `readResponses`
on response arrival). -/
def callCancelExit (s : BaseClientState) (ctxErr : String) :
    Except String Str × BaseClientState :=
  (.error ctxErr, s)

/-- The delivery step of `BaseClient.readResponses` for a decoded
response id: under the mutex, when the id is pending its entry is removed
and the body delivered; otherwise the response is dropped silently. -/
def deliverResponse (s : BaseClientState) (id : Int) : BaseClientState :=
  if s.pending.contains id then { s with pending := s.pending.erase id } else s

/-- C1 (code evaluated at the failing input): on a fresh client, the
first `Call` allocates id 1 and registers it; if the context is cancelled
before a response arrives the call returns the context's error, but the
pending entry for id 1 is still in the map after the call has returned —
the cancellation path does not remove it. -/
theorem call_cancelled_leaves_pending_entry :
    (callCancelExit (callBegin newBaseClient).2 "context canceled").1
        = .error "context canceled" ∧
      (callCancelExit (callBegin newBaseClient).2 "context canceled").2.pending.contains
          (callBegin newBaseClient).1 = true := by
  constructor
  · rfl
  · decide

/-- Events of a `BaseClient` run affecting the modelled state: a `Call`'s
entry phase, a `Call` returning on context cancellation, and
`readResponses` delivering a response id. -/
inductive BCStep where
  | call
  | cancel (ctxErr : String)
  | deliver (id : Int)

/-- Run a sequence of events and collect, in order, the ids allocated by
the `call` events. -/
def callIdsAux : BaseClientState → List BCStep → List Int
  | _, [] => []
  | s, BCStep.call :: rest =>
    (callBegin s).1 :: callIdsAux (callBegin s).2 rest
  | s, BCStep.cancel e :: rest => callIdsAux (callCancelExit s e).2 rest
  | s, BCStep.deliver id :: rest => callIdsAux (deliverResponse s id) rest

/-- The ids allocated by the `call` events of a run starting from a fresh
client. -/
def callIds (steps : List BCStep) : List Int :=
  callIdsAux newBaseClient steps

theorem int64OfNat_eq_of_lt {n : Nat} (hn : n < 2 ^ 63) : int64OfNat n = (n : Int) := by
  unfold int64OfNat
  have h0 : (0 : Int) ≤ (n : Int) + 2 ^ 63 := by positivity
  have h1 : (n : Int) + 2 ^ 63 < 2 ^ 64 := by
    have : (n : Int) < 2 ^ 63 := by exact_mod_cast hn
    norm_num
    omega
  rw [Int.emod_eq_of_lt h0 h1]
  ring

/-- Number of `call` events in a run. -/
def numCalls : List BCStep → Nat
  | [] => 0
  | BCStep.call :: rest => numCalls rest + 1
  | BCStep.cancel _ :: rest => numCalls rest
  | BCStep.deliver _ :: rest => numCalls rest

theorem deliverResponse_counter (s : BaseClientState) (id : Int) :
    (deliverResponse s id).counter = s.counter := by
  unfold deliverResponse
  split <;> rfl

/-- The id sequence `n` consecutive `Add(1)` allocations produce when the
counter currently reads `c`. -/
def idsFrom (c : Nat) : Nat → List Int
  | 0 => []
  | n + 1 => int64OfNat (c + 1) :: idsFrom (c + 1) n

theorem callBegin_counter (s : BaseClientState) :
    (callBegin s).2.counter = s.counter + 1 := rfl

theorem callBegin_fst (s : BaseClientState) :
    (callBegin s).1 = int64OfNat (s.counter + 1) := rfl

theorem callIdsAux_eq (steps : List BCStep) :
    ∀ s : BaseClientState, callIdsAux s steps = idsFrom s.counter (numCalls steps) := by
  induction steps with
  | nil => intro s; rfl
  | cons st rest ih =>
    intro s
    cases st with
    | call =>
      show (callBegin s).1 :: callIdsAux (callBegin s).2 rest
          = idsFrom s.counter (numCalls rest + 1)
      rw [callBegin_fst, ih ((callBegin s).2), callBegin_counter]
      rfl
    | cancel e =>
      show callIdsAux s rest = idsFrom s.counter (numCalls rest)
      exact ih s
    | deliver id =>
      show callIdsAux (deliverResponse s id) rest = idsFrom s.counter (numCalls rest)
      rw [ih (deliverResponse s id), deliverResponse_counter]

theorem idsFrom_length (n : Nat) : ∀ c : Nat, (idsFrom c n).length = n := by
  induction n with
  | zero => intro c; rfl
  | succ n ih =>
    intro c
    show (idsFrom c (n + 1)).length = n + 1
    rw [show idsFrom c (n + 1) = int64OfNat (c + 1) :: idsFrom (c + 1) n from rfl,
      List.length_cons, ih (c + 1)]

theorem idsFrom_getD (n : Nat) :
    ∀ c i : Nat, i < n → (idsFrom c n).getD i 0 = int64OfNat (c + i + 1) := by
  induction n with
  | zero => intro c i h; omega
  | succ n ih =>
    intro c i h
    rw [show idsFrom c (n + 1) = int64OfNat (c + 1) :: idsFrom (c + 1) n from rfl]
    cases i with
    | zero =>
      rw [List.getD_cons_zero]
    | succ i =>
      rw [List.getD_cons_succ, ih (c + 1) i (by omega)]
      congr 1
      omega

/-- C5: within one client's run, the ids allocated by two distinct `Call`
invocations are distinct, and the id of a later call is strictly greater
than that of an earlier one, for any interleaving of calls, cancellations
and response deliveries whose call count stays below `2^63` (the signed
64-bit counter does not wrap). -/
theorem call_ids_strict_mono (steps : List BCStep) (i j : Nat)
    (hij : i < j) (hj : j < (callIds steps).length)
    (hbound : (callIds steps).length < 2 ^ 63) :
    (callIds steps).getD i 0 < (callIds steps).getD j 0 ∧
      (callIds steps).getD i 0 ≠ (callIds steps).getD j 0 := by
  have hEq : callIds steps = idsFrom 0 (numCalls steps) := by
    have h := callIdsAux_eq steps newBaseClient
    rw [show newBaseClient.counter = 0 from rfl] at h
    exact h
  have hlen : (callIds steps).length = numCalls steps := by
    rw [hEq, idsFrom_length]
  rw [hlen] at hj hbound
  have hi : i < numCalls steps := Nat.lt_trans hij hj
  rw [hEq, idsFrom_getD (numCalls steps) 0 i hi, idsFrom_getD (numCalls steps) 0 j hj,
    int64OfNat_eq_of_lt (show 0 + i + 1 < 2 ^ 63 by omega),
    int64OfNat_eq_of_lt (show 0 + j + 1 < 2 ^ 63 by omega)]
  have hlt : (0 + i + 1 : Nat) < 0 + j + 1 := by omega
  constructor
  · exact_mod_cast hlt
  · intro hc
    have : (0 + i + 1 : Nat) = 0 + j + 1 := by exact_mod_cast hc
    omega

/-- C5 witness: three calls on a fresh client; the first and second ids
are 1 and 2. -/
theorem call_ids_strict_mono_witness :
    0 < 1 ∧ 1 < (callIds [BCStep.call, BCStep.call, BCStep.call]).length ∧
      (callIds [BCStep.call, BCStep.call, BCStep.call]).length < 2 ^ 63 ∧
      ((callIds [BCStep.call, BCStep.call, BCStep.call]).getD 0 0
          < (callIds [BCStep.call, BCStep.call, BCStep.call]).getD 1 0 ∧
        (callIds [BCStep.call, BCStep.call, BCStep.call]).getD 0 0
          ≠ (callIds [BCStep.call, BCStep.call, BCStep.call]).getD 1 0) :=
  ⟨by decide, by decide, by decide,
   call_ids_strict_mono [BCStep.call, BCStep.call, BCStep.call] 0 1
     (by decide) (by decide) (by decide)⟩

end Reducto
